import Mathlib

/-!
Shallow embedding of `strace-tree.py` (nomis/strace-utils).

The script reads one trace file per process, extracts with two regular
expressions the last-executed image and the set of spawned pids, and then
builds a forest of processes.  We embed:

* lines as `List Char` (the Python code iterates over the lines of a file,
  strips each line, and applies `re.fullmatch`; lines therefore contain no
  newline character);
* `RE_EXECVE = \S+ execve\("(?P<exec>[^"]+)", \["(?P<name>[^"]*)"(?P<args>.+)\].+\) = 0`
  as `matchExecve` (fullmatch semantics; the greedy backtracking engine is
  deterministic on this pattern, see the comments at each definition);
* `RE_CLONE = \S+ (clone|vfork)\(.*\)\s* = (?P<pid>[0-9]+)` as `matchClone`;
* `StraceFile.__init__` as a fold of `stepLine` over the lines, with the pid
  taken from the filename via the Python idiom `filename.split(".")[1]` and `int`;
* `processes` as a left fold building a pid-keyed dictionary
  (`List (Int × StraceFile)` with in-place overwrite, Python dict semantics);
* `tree` as the computation of the union of all spawned-pid sets, the
  per-record `children` set (represented by the pids of the child records,
  which key the records uniquely), the clone/init renaming, and the
  dictionary of roots.

Failure of `int(...)` on the filename is modelled with `Except`; the exact
Python exception message is abstracted, only the success/failure split is
modelled.
-/

namespace StraceTree

/-- Python `\s` (ASCII range): space, tab, newline, carriage return,
vertical tab, form feed.  The traces in scope are ASCII, so the extra
unicode whitespace accepted by Python is not modelled. -/
def isPyWs (c : Char) : Bool :=
  c.toNat = 32 || c.toNat = 9 || c.toNat = 10 || c.toNat = 13 || c.toNat = 11 || c.toNat = 12

/-- Regex `[0-9]`: the ASCII digits. -/
def isDigitCh (c : Char) : Bool :=
  48 ≤ c.toNat && c.toNat ≤ 57

/-- Decimal value of a digit string (most significant digit first). -/
def digitsToNat (l : List Char) : Nat :=
  l.foldl (fun n c => n * 10 + (c.toNat - 48)) 0

/-- Python `str.strip()` on an ASCII line. -/
def pyStrip (l : List Char) : List Char :=
  ((l.dropWhile isPyWs).reverse.dropWhile isPyWs).reverse

/-- Consume a literal from the front of a list; `some rest` on success.
`dropLit lit cs = some r` iff `cs = lit ++ r`. -/
def dropLit : List Char → List Char → Option (List Char)
  | [], cs => some cs
  | _ :: _, [] => none
  | l :: ls, c :: cs => if c = l then dropLit ls cs else none

/-- Split a list around the LAST occurrence of `c`:
`splitLast c l = some (before, after)` with `l = before ++ c :: after`
and `c ∉ after`; `none` when `c ∉ l`. -/
def splitLast (c : Char) : List Char → Option (List Char × List Char)
  | [] => none
  | x :: xs =>
    match splitLast c xs with
    | some (b, a) => some (x :: b, a)
    | none => if x = c then some ([], xs) else none

/-- Part of `RE_EXECVE` after the final `) = 0` has been stripped:
`\S+ execve\("(?P<exec>[^"]+)", \["(?P<name>[^"]*)"(?P<args>.+)\].+`.
The regex engine is deterministic here: `\S+` cannot cross whitespace, so it
must stop at the first whitespace character, which the pattern requires to
be a space; `[^"]+`/`[^"]*` cannot cross a `"` and are each followed by a
literal `"`, so they stop exactly at the next quote; the greedy
`(?P<args>.+)\].+` picks the last `]` that still leaves at least one
character before the closing `)` (i.e. the last `]` that is not the final
character of the remainder), and requires at least one character of args. -/
def parseExecveCore (core : List Char) : Option (List Char × List Char × List Char) :=
  if core.takeWhile (fun c => !(isPyWs c)) = [] then none
  else
    match dropLit ((" execve(\"").toList) (core.drop (core.takeWhile (fun c => !(isPyWs c))).length) with
    | none => none
    | some r1 =>
      if r1.takeWhile (fun c => !(c = '"')) = [] then none
      else
        match dropLit (("\", [\"").toList) (r1.drop (r1.takeWhile (fun c => !(c = '"'))).length) with
        | none => none
        | some r3 =>
          match r3.drop (r3.takeWhile (fun c => !(c = '"'))).length with
          | x :: r5 =>
            if x = '"' then
              match splitLast ']' r5.dropLast with
              | some (args, _) =>
                if args = [] then none
                else some (r1.takeWhile (fun c => !(c = '"')),
                           r3.takeWhile (fun c => !(c = '"')), args)
              | none => none
            else none
          | [] => none

/-- Semantics of `RE_EXECVE.fullmatch` on a line.  A fullmatch forces the line to end
with the five characters `) = 0`; the rest is handled by
`parseExecveCore`.  Returns the captures `(exec, name, args)`. -/
def matchExecve (cs : List Char) : Option (List Char × List Char × List Char) :=
  if cs.reverse.take 5 = ['0', ' ', '=', ' ', ')'] then
    parseExecveCore ((cs.reverse.drop 5).reverse)
  else none

/-- The ` (clone|vfork)\(` part of `RE_CLONE`: a space, one of the two call
names (tried in order, as the regex alternation does), and the opening
parenthesis. -/
def cloneArgsTail (rest : List Char) : Option (List Char) :=
  match dropLit ((" clone(").toList) rest with
  | some r => some r
  | none => dropLit ((" vfork(").toList) rest

/-- The `\(.*\)\s* = (?P<pid>[0-9]+)` suffix of `RE_CLONE`, applied after
the opening parenthesis (fullmatch semantics).  `[0-9]+` is anchored at the
end of the line and greedy, so it is the maximal digit suffix; the literal
` = ` must precede it; `\s*` and `\)` force the last non-whitespace
character before the ` = ` to be `)`; `.*` absorbs the rest. -/
def matchCloneTail (r : List Char) : Option Int :=
  if r.reverse.takeWhile isDigitCh = [] then none
  else
    match r.reverse.drop (r.reverse.takeWhile isDigitCh).length with
    | a :: b :: c :: r2 =>
      if a = ' ' ∧ b = '=' ∧ c = ' ' then
        match r2.dropWhile isPyWs with
        | x :: _ =>
          if x = ')' then
            some (Int.ofNat (digitsToNat (r.reverse.takeWhile isDigitCh).reverse))
          else none
        | [] => none
      else none
    | _ => none

/-- Semantics of `RE_CLONE.fullmatch` on a line.  As for `matchExecve`, `\S+` must stop
at the first whitespace character of the line, which must be the space
before `clone(`/`vfork(`. -/
def matchClone (cs : List Char) : Option Int :=
  if cs.takeWhile (fun c => !(isPyWs c)) = [] then none
  else
    match cloneArgsTail (cs.drop (cs.takeWhile (fun c => !(isPyWs c))).length) with
    | some r => matchCloneTail r
    | none => none

/-- The record built by `StraceFile.__init__` and enriched by `tree`.
`children` is computed by `tree`; it stores the pids of the child records,
which identify them uniquely in the pid-keyed collection. -/
structure StraceFile where
  filename : String
  pid : Int
  named : Bool
  execve : Option (List Char)
  name : Option (List Char)
  args : Option (List Char)
  clones : Finset Int
  children : Finset Int
deriving DecidableEq

/-- The record as first created, before any line is processed. -/
def initFile (fn : String) (p : Int) : StraceFile :=
  { filename := fn
    pid := p
    named := false
    execve := none
    name := none
    args := none
    clones := ∅
    children := ∅ }

/-- One iteration of the line loop in `StraceFile.__init__`: strip the
line; if `RE_EXECVE` matches and no image replacement was recorded yet,
record path, name and the argv text `f'"{name}"{args}'`; otherwise, if
`RE_CLONE` matches, add the returned pid to the clone set. -/
def stepLine (st : StraceFile) (line : List Char) : StraceFile :=
  match matchExecve (pyStrip line) with
  | some (ex, nm, ar) =>
    if st.named then st
    else { st with
           named := true
           execve := some ex
           name := some nm
           args := some ('"' :: nm ++ '"' :: ar) }
  | none =>
    match matchClone (pyStrip line) with
    | some p => { st with clones := insert p st.clones }
    | none => st

/-- Python `str.split` with separator `"."`. -/
def splitDot : List Char → List (List Char)
  | [] => [[]]
  | c :: rest =>
    if c = '.' then [] :: splitDot rest
    else
      match splitDot rest with
      | [] => [[c]]
      | p :: ps => (c :: p) :: ps

/-- Tail of the Python integer-literal grammar after the first digit:
`(["_"] digit)*` — an underscore must sit between two digits. -/
def digitsUndTail : List Char → Bool
  | [] => true
  | ['_'] => false
  | '_' :: c :: t => isDigitCh c && digitsUndTail t
  | c :: rest => isDigitCh c && digitsUndTail rest

/-- The Python `digitpart`: `digit (["_"] digit)*`. -/
def pyIntDigits : List Char → Bool
  | [] => false
  | c :: rest => isDigitCh c && digitsUndTail rest

/-- Python `int(s)` on an ASCII string: optional surrounding whitespace,
optional sign, then a digit part with optional single underscores between
digits.  `none` models the `ValueError`. -/
def pyInt (s : List Char) : Option Int :=
  match pyStrip s with
  | '+' :: rest =>
    if pyIntDigits rest then some (Int.ofNat (digitsToNat (rest.filter (fun c => !(c = '_'))))) else none
  | '-' :: rest =>
    if pyIntDigits rest then some (-(Int.ofNat (digitsToNat (rest.filter (fun c => !(c = '_')))))) else none
  | t =>
    if pyIntDigits t then some (Int.ofNat (digitsToNat (t.filter (fun c => !(c = '_'))))) else none

/-- Semantics of `int(filename.split(".")[1])`: `none` models both the `IndexError`
(fewer than two components) and the `ValueError` (non-numeric component). -/
def straceFilePid (fn : String) : Option Int :=
  match splitDot fn.toList with
  | _ :: seg :: _ => pyInt seg
  | _ => none

/-- Semantics of `StraceFile(filename)` over the given file contents: fails when no pid
can be extracted from the filename, otherwise folds the line loop. -/
def mkStraceFile (fn : String) (lines : List (List Char)) : Except String StraceFile :=
  match straceFilePid fn with
  | none => Except.error ("cannot extract pid from filename " ++ fn)
  | some p => Except.ok (lines.foldl stepLine (initFile fn p))

/-- A Python dict keyed by pid, in insertion order. -/
abbrev Dict := List (Int × StraceFile)

/-- Python dict assignment `d[k] = v`: overwrite in place, append at the
end when the key is new. -/
def dictInsert (k : Int) (v : StraceFile) : Dict → Dict
  | [] => [(k, v)]
  | (k', v') :: rest => if k = k' then (k, v) :: rest else (k', v') :: dictInsert k v rest

/-- Python dict lookup `d.get(k)`. -/
def dictGet (k : Int) : Dict → Option StraceFile
  | [] => none
  | (k', v) :: rest => if k = k' then some v else dictGet k rest

/-- The loop of `processes`: build each record (propagating the startup
failure) and assign `procs[sf.pid] = sf`. -/
def processesAux (acc : Dict) : List (String × List (List Char)) → Except String Dict
  | [] => Except.ok acc
  | f :: fs =>
    match mkStraceFile f.1 f.2 with
    | Except.error e => Except.error e
    | Except.ok sf => processesAux (dictInsert sf.pid sf acc) fs

/-- Semantics of `processes(filenames)` over (filename, contents) pairs. -/
def processes (files : List (String × List (List Char))) : Except String Dict :=
  processesAux [] files

/-- The union of all `clones` sets, as accumulated by the first loop of
`tree`. -/
def allClones (procs : Dict) : Finset Int :=
  procs.foldl (fun s kv => s ∪ kv.2.clones) ∅

/-- The effect of `tree` on one record: `children` resolves each spawned
pid against the collection (dangling pids are dropped by `filter(None, …)`),
and an un-named record gets the synthetic label `clone` or `init` depending
on whether its pid occurs in the union of all spawned-pid sets. -/
def treeRecord (procs : Dict) (sf : StraceFile) : StraceFile :=
  { sf with
    children := sf.clones.filter (fun q => (dictGet q procs).isSome)
    execve := if sf.named then sf.execve
              else some (if sf.pid ∈ allClones procs then ("clone").toList else ("init").toList)
    name := if sf.named then sf.name
            else some (if sf.pid ∈ allClones procs then ("clone").toList else ("init").toList) }

/-- The full collection after `tree` has run: every record enriched with
its children and possibly renamed, under its original key. -/
def treeProcs (procs : Dict) : Dict :=
  procs.map (fun kv => (kv.1, treeRecord procs kv.2))

/-- One iteration of the root-collecting loop of `tree`:
`if proc.pid not in clones: inits[proc.pid] = proc`. -/
def rootStep (procs : Dict) (acc : Dict) (kv : Int × StraceFile) : Dict :=
  if kv.2.pid ∈ allClones procs then acc else dictInsert kv.2.pid kv.2 acc

/-- Semantics of `tree(procs)`: the dictionary of roots (records whose pid is spawned by
no record), holding the enriched records. -/
def tree (procs : Dict) : Dict :=
  (treeProcs procs).foldl (rootStep procs) []

/-- A collection of extracted records as `processes` produces it: keys are
distinct and each record sits under its own pid. -/
def WellKeyed (procs : Dict) : Prop :=
  (procs.map Prod.fst).Nodup ∧ ∀ kv ∈ procs, kv.2.pid = kv.1

instance (procs : Dict) : Decidable (WellKeyed procs) :=
  inferInstanceAs (Decidable ((procs.map Prod.fst).Nodup ∧ ∀ kv ∈ procs, kv.2.pid = kv.1))

/-- Decimal digits of a natural number, most significant first, with
enough fuel to terminate (`fuel > n` suffices). -/
def natDigitsGo : Nat → Nat → List Char
  | 0, _ => []
  | fuel + 1, n =>
    if n < 10 then [Nat.digitChar n]
    else natDigitsGo fuel (n / 10) ++ [Nat.digitChar (n % 10)]

/-- Decimal digits of a natural number, most significant first. -/
def natDigits (n : Nat) : List Char := natDigitsGo (n + 1) n

/-- Decimal rendering of an integer, as a tracer prints a return value. -/
def showInt (r : Int) : List Char :=
  if r < 0 then '-' :: natDigits r.natAbs else natDigits r.natAbs

/-- The closing `) = <ret>` of a call line. -/
def retTail (r : Int) : List Char := [')', ' ', '=', ' '] ++ showInt r

/-- A trace line of the `execve` call shape: a prefix token, the call with
a quoted path, a bracketed list starting with a quoted display name, and a
return value. -/
def execveCallLine (pre path nm args mid : List Char) (r : Int) : List Char :=
  pre ++ (" execve(\"").toList ++ path ++ ("\", [\"").toList ++ nm ++ '"' :: args ++ ']' :: mid ++ retTail r

/-- A trace line of the `clone`/`vfork` call shape with a return value. -/
def cloneCallLine (pre body : List Char) (useV : Bool) (r : Int) : List Char :=
  pre ++ ' ' :: (if useV then ("vfork").toList else ("clone").toList) ++ '(' :: body ++ retTail r

/-- The captures of the first line of a file recognized by `RE_EXECVE`. -/
def firstExecMatch : List (List Char) → Option (List Char × List Char × List Char)
  | [] => none
  | l :: ls =>
    match matchExecve (pyStrip l) with
    | some g => some g
    | none => firstExecMatch ls

/-- The captures of the last line of a file recognized by `RE_EXECVE`. -/
def lastExecMatch (lines : List (List Char)) : Option (List Char × List Char × List Char) :=
  firstExecMatch lines.reverse

/-! Concrete inputs used by witnesses and counterexamples. -/

/-- A file whose trace re-executes: first `/a`, then `/b`. -/
def reExecLines : List (List Char) :=
  [("1 execve(\"/a\", [\"a\", \"b\"], e) = 0").toList,
   ("1 execve(\"/b\", [\"b\", \"c\"], e) = 0").toList]

/-- The two-file input of the worked example in the spec, with the execve line
exactly as the spec writes it. -/
def exampleFilesLiteral : List (String × List (List Char)) :=
  [("trace.100", [("execve(\"/bin/sh\", [\"sh\", \"-c\", \"true\"]) = 0").toList,
                  ("0.000100 clone(child_stack=NULL, flags=SIGCHLD) = 101").toList]),
   ("trace.101", [("+++ exited with 0 +++").toList])]

/-- The records extracted from `exampleFilesLiteral`. -/
def exampleProcsLiteral : Dict := ((processes exampleFilesLiteral).toOption).getD []

/-- The two-file input of the worked example in the spec, with the execve line
written the way the tracer actually prints it: a timestamp prefix and an
environment remainder between the bracket and the return. -/
def exampleFilesAmended : List (String × List (List Char)) :=
  [("trace.100", [("0.000000 execve(\"/bin/sh\", [\"sh\", \"-c\", \"true\"], 0x7ffc2e /* 12 vars */) = 0").toList,
                  ("0.000100 clone(child_stack=NULL, flags=SIGCHLD) = 101").toList]),
   ("trace.101", [("+++ exited with 0 +++").toList])]

/-- The records extracted from `exampleFilesAmended`. -/
def exampleProcsAmended : Dict := ((processes exampleFilesAmended).toOption).getD []

/-- A two-record collection: record 1 spawned record 2. -/
def wRec1 : StraceFile :=
  { filename := "t.1"
    pid := 1
    named := false
    execve := none
    name := none
    args := none
    clones := {2}
    children := ∅ }

/-- Second record of the demo collection. -/
def wRec2 : StraceFile :=
  { filename := "t.2"
    pid := 2
    named := false
    execve := none
    name := none
    args := none
    clones := ∅
    children := ∅ }

/-- The demo collection keyed by pid. -/
def wProcs : Dict := [(1, wRec1), (2, wRec2)]

/-- A record whose image replacement has already been captured. -/
def wNamed : StraceFile :=
  { filename := "t.3"
    pid := 3
    named := true
    execve := some (("/bin/sh").toList)
    name := some (("sh").toList)
    args := some (("\"sh\", \"-c\", \"true\"").toList)
    clones := ∅
    children := ∅ }

/-- Two files encoding the same pid 7; the later one records a spawn. -/
def dupFiles : List (String × List (List Char)) :=
  [("a.7", []), ("b.7", [("1 clone(x) = 9").toList])]

/-- The record that the later duplicate file `b.7` produces. -/
def dupRec2 : StraceFile :=
  { filename := "b.7"
    pid := 7
    named := false
    execve := none
    name := none
    args := none
    clones := {9}
    children := ∅ }

/-! ### Lemmas about the list helpers -/

theorem dropLit_self : ∀ (l cs : List Char), dropLit l (l ++ cs) = some cs := by
  intro l
  induction l with
  | nil => intro cs; rfl
  | cons x ls ih => intro cs; simp [dropLit, ih]

theorem splitLast_of_not_mem (c : Char) : ∀ (l : List Char), c ∉ l → splitLast c l = none := by
  intro l
  induction l with
  | nil => intro _; rfl
  | cons x xs ih =>
    intro h
    have h1 : ¬ x = c := fun he => h (by simp [he])
    have h2 : c ∉ xs := fun hm => h (by simp [hm])
    simp [splitLast, ih h2, h1]

theorem splitLast_append_last (c : Char) (xs ys : List Char) (h : c ∉ ys) :
    splitLast c (xs ++ c :: ys) = some (xs, ys) := by
  induction xs with
  | nil => simp [splitLast, splitLast_of_not_mem c ys h]
  | cons x t ih => simp [splitLast, ih]

theorem dropWhile_eq_self_of_head {p : Char → Bool} (l : List Char)
    (h : ∀ c ∈ l.take 1, p c = false) : l.dropWhile p = l := by
  cases l with
  | nil => rfl
  | cons x t =>
    have hx : p x = false := h x (by simp)
    simp [List.dropWhile_cons, hx]

theorem pyStrip_eq_self (l : List Char) (h1 : ∀ c ∈ l.take 1, isPyWs c = false)
    (h2 : ∀ c ∈ l.reverse.take 1, isPyWs c = false) : pyStrip l = l := by
  unfold pyStrip
  rw [dropWhile_eq_self_of_head l h1, dropWhile_eq_self_of_head l.reverse h2,
    List.reverse_reverse]

/-! ### Lemmas about the dictionary -/

theorem dictGet_insert_self (k : Int) (v : StraceFile) :
    ∀ (d : Dict), dictGet k (dictInsert k v d) = some v := by
  intro d
  induction d with
  | nil => simp [dictInsert, dictGet]
  | cons kv rest ih =>
    cases kv with
    | mk k' v' =>
      by_cases hk : k = k' <;> simp [dictInsert, dictGet, hk, ih]

theorem dictGet_insert_ne (k q : Int) (v : StraceFile) (h : q ≠ k) :
    ∀ (d : Dict), dictGet q (dictInsert k v d) = dictGet q d := by
  intro d
  induction d with
  | nil => simp [dictInsert, dictGet, h]
  | cons kv rest ih =>
    cases kv with
    | mk k' v' =>
      by_cases hk : k = k'
      · subst hk; simp [dictInsert, dictGet, h]
      · simp only [dictInsert, if_neg hk, dictGet]
        split <;> simp [ih]

theorem dictGet_mem (k : Int) (v : StraceFile) :
    ∀ (d : Dict), dictGet k d = some v → (k, v) ∈ d := by
  intro d
  induction d with
  | nil => intro h; simp [dictGet] at h
  | cons kv rest ih =>
    cases kv with
    | mk k' v' =>
      intro h
      by_cases hk : k = k'
      · subst hk
        simp [dictGet] at h
        simp [h]
      · simp [dictGet, hk] at h
        exact List.mem_cons_of_mem _ (ih h)

theorem dictGet_map_val (f : StraceFile → StraceFile) (p : Int) :
    ∀ (d : Dict), dictGet p (d.map (fun kv => (kv.1, f kv.2))) = (dictGet p d).map f := by
  intro d
  induction d with
  | nil => rfl
  | cons kv rest ih =>
    cases kv with
    | mk k' v' =>
      by_cases hk : p = k' <;> simp [dictGet, hk, ih]

theorem dictGet_treeProcs (procs : Dict) (p : Int) :
    dictGet p (treeProcs procs) = (dictGet p procs).map (treeRecord procs) :=
  dictGet_map_val (treeRecord procs) p procs

theorem mem_foldl_clones (q : Int) : ∀ (l : Dict) (acc : Finset Int),
    (q ∈ l.foldl (fun s kv => s ∪ kv.2.clones) acc ↔
      q ∈ acc ∨ ∃ kv, kv ∈ l ∧ q ∈ kv.2.clones) := by
  intro l
  induction l with
  | nil => intro acc; simp
  | cons kv rest ih =>
    intro acc
    rw [List.foldl_cons, ih]
    simp only [Finset.mem_union, List.mem_cons]
    constructor
    · rintro (⟨hq | hq⟩ | ⟨kv', hkv', hq⟩)
      · exact Or.inl hq
      · exact Or.inr ⟨kv, Or.inl rfl, hq⟩
      · exact Or.inr ⟨kv', Or.inr hkv', hq⟩
    · rintro (hq | ⟨kv', hkv' | hkv', hq⟩)
      · exact Or.inl (Or.inl hq)
      · exact Or.inl (Or.inr (hkv' ▸ hq))
      · exact Or.inr ⟨kv', hkv', hq⟩

theorem mem_allClones (procs : Dict) (q : Int) :
    q ∈ allClones procs ↔ ∃ kv, kv ∈ procs ∧ q ∈ kv.2.clones := by
  unfold allClones
  rw [mem_foldl_clones]
  simp

/-! ### Lemmas about digits and the integer rendering -/

theorem digitChar_isDigitCh (m : Nat) (h : m < 10) : isDigitCh (Nat.digitChar m) = true := by
  interval_cases m <;> decide

theorem natDigitsGo_spec : ∀ (fuel n : Nat), n < fuel →
    (natDigitsGo fuel n ≠ [] ∧ (∀ c ∈ natDigitsGo fuel n, isDigitCh c = true) ∧
      (∀ c, natDigitsGo fuel n = [c] → n < 10 ∧ c = Nat.digitChar n)) := by
  intro fuel
  induction fuel with
  | zero => intro n h; omega
  | succ f ih =>
    intro n h
    by_cases h10 : n < 10
    · refine ⟨by simp [natDigitsGo, h10], ?_, ?_⟩
      · intro c hc
        simp [natDigitsGo, h10] at hc
        rw [hc]
        exact digitChar_isDigitCh n h10
      · intro c hc
        simp [natDigitsGo, h10] at hc
        exact ⟨h10, hc.symm⟩
    · have hrec : n / 10 < f := by omega
      obtain ⟨hne, hdig, -⟩ := ih (n / 10) hrec
      refine ⟨?_, ?_, ?_⟩
      · simp [natDigitsGo, h10]
      · intro c hc
        simp [natDigitsGo, h10] at hc
        rcases hc with hc | hc
        · exact hdig c hc
        · rw [hc]
          exact digitChar_isDigitCh _ (by omega)
      · intro c hc
        rw [natDigitsGo, if_neg h10] at hc
        have hl := congrArg List.length hc
        simp at hl
        exact absurd hl hne

theorem natDigits_ne_nil (n : Nat) : natDigits n ≠ [] :=
  (natDigitsGo_spec (n + 1) n (by omega)).1

theorem natDigits_all (n : Nat) : ∀ c ∈ natDigits n, isDigitCh c = true :=
  (natDigitsGo_spec (n + 1) n (by omega)).2.1

theorem natDigits_single (n : Nat) (c : Char) (h : natDigits n = [c]) :
    n < 10 ∧ c = Nat.digitChar n :=
  (natDigitsGo_spec (n + 1) n (by omega)).2.2 c h

theorem digitChar_ne_zero (n : Nat) (h1 : n < 10) (h2 : n ≠ 0) : Nat.digitChar n ≠ '0' := by
  interval_cases n <;> first | exact absurd rfl h2 | decide

theorem isDigitCh_not_ws (c : Char) (h : isDigitCh c = true) : isPyWs c = false := by
  simp [isDigitCh] at h
  simp [isPyWs]
  omega

theorem showInt_rev_head (r : Int) : ∃ d t, (showInt r).reverse = d :: t ∧ isDigitCh d = true := by
  unfold showInt
  split
  · rcases hrev : (natDigits r.natAbs).reverse with - | ⟨d, t⟩
    · exact absurd (List.reverse_eq_nil_iff.mp hrev) (natDigits_ne_nil _)
    · refine ⟨d, t ++ ['-'], ?_, ?_⟩
      · rw [List.reverse_cons, hrev]
        simp
      · exact natDigits_all _ d (List.mem_reverse.mp (by rw [hrev]; simp))
  · rcases hrev : (natDigits r.natAbs).reverse with - | ⟨d, t⟩
    · exact absurd (List.reverse_eq_nil_iff.mp hrev) (natDigits_ne_nil _)
    · exact ⟨d, t, rfl, natDigits_all _ d (List.mem_reverse.mp (by rw [hrev]; simp))⟩

theorem take5_ne (r : Int) (hr : r ≠ 0) (rest : List Char) :
    ((showInt r).reverse ++ ' ' :: '=' :: ' ' :: ')' :: rest).take 5 ≠ ['0', ' ', '=', ' ', ')'] := by
  unfold showInt
  split
  · rcases hrev : (natDigits r.natAbs).reverse with - | ⟨d, t⟩
    · exact absurd (List.reverse_eq_nil_iff.mp hrev) (natDigits_ne_nil _)
    · rw [List.reverse_cons, hrev]
      cases t with
      | nil => simp [List.take_succ_cons]
      | cons e t2 =>
        have he : isDigitCh e = true :=
          natDigits_all _ e (List.mem_reverse.mp (by rw [hrev]; simp))
        intro h
        simp [List.take_succ_cons] at h
        obtain ⟨-, h2, -⟩ := h
        rw [h2] at he
        exact absurd he (by decide)
  · rename_i hpos
    have hnat : r.natAbs ≠ 0 := fun h0 => hr (Int.natAbs_eq_zero.mp h0)
    rcases hrev : (natDigits r.natAbs).reverse with - | ⟨d, t⟩
    · exact absurd (List.reverse_eq_nil_iff.mp hrev) (natDigits_ne_nil _)
    · cases t with
      | nil =>
        have hsingle : natDigits r.natAbs = [d] := by
          have h := congrArg List.reverse hrev
          simpa using h
        obtain ⟨hlt, hd⟩ := natDigits_single _ d hsingle
        have hd0 : d ≠ '0' := by
          rw [hd]
          exact digitChar_ne_zero _ hlt hnat
        intro h
        simp [List.take_succ_cons] at h
        exact hd0 h
      | cons e t2 =>
        have he : isDigitCh e = true :=
          natDigits_all _ e (List.mem_reverse.mp (by rw [hrev]; simp))
        intro h
        simp [List.take_succ_cons] at h
        obtain ⟨-, h2, -⟩ := h
        rw [h2] at he
        exact absurd he (by decide)

/-! ### Lemmas about the matchers on constructed lines -/

theorem matchExecve_append_core (core : List Char) :
    matchExecve (core ++ [')', ' ', '=', ' ', '0']) = parseExecveCore core := by
  unfold matchExecve
  rw [List.reverse_append,
    show ([')', ' ', '=', ' ', '0'] : List Char).reverse = ['0', ' ', '=', ' ', ')'] from rfl,
    List.take_left' (by rfl), if_pos rfl, List.drop_left' (by rfl), List.reverse_reverse]

theorem matchExecve_ret_none (body : List Char) (r : Int) (hr : r ≠ 0) :
    matchExecve (body ++ retTail r) = none := by
  unfold matchExecve
  rw [if_neg]
  have hrev : (body ++ retTail r).reverse =
      (showInt r).reverse ++ ' ' :: '=' :: ' ' :: ')' :: body.reverse := by
    simp [retTail, List.reverse_append]
  rw [hrev]
  exact take5_ne r hr body.reverse

theorem takeWhile_stop {p : Char → Bool} (a : List Char) (x : Char) (t : List Char)
    (ha : ∀ c ∈ a, p c = true) (hx : p x = false) :
    (a ++ x :: t).takeWhile p = a := by
  rw [List.takeWhile_append_of_pos ha, List.takeWhile_cons_of_neg (by simp [hx])]
  simp

theorem execveLit1 : (" execve(\"").toList = [' ', 'e', 'x', 'e', 'c', 'v', 'e', '(', '"'] := rfl

theorem execveLit2 : ("\", [\"").toList = ['"', ',', ' ', '[', '"'] := rfl

theorem cloneLit : (" clone(").toList = [' ', 'c', 'l', 'o', 'n', 'e', '('] := rfl

theorem vforkLit : (" vfork(").toList = [' ', 'v', 'f', 'o', 'r', 'k', '('] := rfl

theorem parseExecveCore_eq (pre path nm args mid : List Char)
    (hpre : pre ≠ []) (hprew : ∀ c ∈ pre, isPyWs c = false)
    (hpath : path ≠ []) (hpathq : '"' ∉ path) (hnmq : '"' ∉ nm)
    (hargs : args ≠ []) (hmid : mid ≠ []) (hmidb : ']' ∉ mid) :
    parseExecveCore (pre ++ (" execve(\"").toList ++ path ++ ("\", [\"").toList ++
      nm ++ '"' :: args ++ ']' :: mid) = some (path, nm, args) := by
  obtain ⟨m, ms, rfl⟩ : ∃ m ms, mid = m :: ms := by
    cases mid with
    | nil => exact absurd rfl hmid
    | cons m ms => exact ⟨m, ms, rfl⟩
  unfold parseExecveCore
  simp only [execveLit1, execveLit2, List.cons_append, List.append_assoc, List.nil_append]
  rw [takeWhile_stop pre ' ' _ (by intro c hc; simp [hprew c hc]) (by decide)]
  rw [if_neg hpre, List.drop_left]
  simp only [dropLit, if_pos rfl, reduceIte]
  rw [takeWhile_stop path '"' _ (by intro c hc; simp; intro he; exact hpathq (he ▸ hc))
    (by decide)]
  rw [if_neg hpath, List.drop_left]
  simp only [dropLit, if_pos rfl, reduceIte]
  rw [takeWhile_stop nm '"' _ (by intro c hc; simp; intro he; exact hnmq (he ▸ hc))
    (by decide)]
  rw [List.drop_left]
  simp only [if_pos rfl]
  have hdl : (args ++ ']' :: m :: ms).dropLast = args ++ ']' :: (m :: ms).dropLast := by
    rw [List.dropLast_append_of_ne_nil _ (by simp)]
    rfl
  rw [hdl, splitLast_append_last ']' args ((m :: ms).dropLast)
    (fun hm => hmidb (List.dropLast_subset _ hm))]
  simp [hargs]

theorem matchClone_execve_none (pre rest : List Char) (hpre : pre ≠ [])
    (hw : ∀ c ∈ pre, isPyWs c = false) :
    matchClone (pre ++ (" execve(\"").toList ++ rest) = none := by
  unfold matchClone
  simp only [execveLit1, List.cons_append, List.append_assoc]
  rw [takeWhile_stop pre ' ' _ (by intro c hc; simp [hw c hc]) (by decide)]
  rw [if_neg hpre, List.drop_left]
  unfold cloneArgsTail
  simp [cloneLit, vforkLit, dropLit]

theorem matchCloneTail_neg (body : List Char) (r : Int) (hneg : r < 0) :
    matchCloneTail (body ++ retTail r) = none := by
  unfold matchCloneTail
  have hrev : (body ++ retTail r).reverse =
      (natDigits r.natAbs).reverse ++ '-' :: ' ' :: '=' :: ' ' :: ')' :: body.reverse := by
    rw [retTail, showInt, if_pos hneg]
    simp [List.reverse_append]
  rw [hrev]
  rw [takeWhile_stop _ '-' _ (fun c hcm => natDigits_all _ c (List.mem_reverse.mp hcm))
    (by decide)]
  rw [if_neg (by simp [List.reverse_eq_nil_iff]; exact natDigits_ne_nil _), List.drop_left]
  simp

theorem matchClone_cloneLine_neg (pre body : List Char) (useV : Bool) (r : Int)
    (hpre : pre ≠ []) (hw : ∀ c ∈ pre, isPyWs c = false) (hneg : r < 0) :
    matchClone (cloneCallLine pre body useV r) = none := by
  unfold matchClone cloneCallLine
  cases useV
  · simp only [Bool.false_eq_true, if_false,
      show ("clone").toList = ['c', 'l', 'o', 'n', 'e'] from rfl,
      List.cons_append, List.append_assoc, List.nil_append]
    rw [takeWhile_stop pre ' ' _ (by intro c hc; simp [hw c hc]) (by decide)]
    rw [if_neg hpre, List.drop_left]
    unfold cloneArgsTail
    simp only [cloneLit, dropLit, if_pos rfl, reduceIte]
    exact matchCloneTail_neg body r hneg
  · simp only [if_true,
      show ("vfork").toList = ['v', 'f', 'o', 'r', 'k'] from rfl,
      List.cons_append, List.append_assoc, List.nil_append]
    rw [takeWhile_stop pre ' ' _ (by intro c hc; simp [hw c hc]) (by decide)]
    rw [if_neg hpre, List.drop_left]
    unfold cloneArgsTail
    simp only [cloneLit, vforkLit, dropLit, if_pos rfl, reduceIte]
    exact matchCloneTail_neg body r hneg

theorem pyStrip_retTail (c0 : Char) (t : List Char) (r : Int) (hc0 : isPyWs c0 = false) :
    pyStrip ((c0 :: t) ++ retTail r) = (c0 :: t) ++ retTail r := by
  apply pyStrip_eq_self
  · intro c hc
    simp [List.take_succ_cons] at hc
    rw [hc]
    exact hc0
  · obtain ⟨d, dt, hd, hdig⟩ := showInt_rev_head r
    intro c hc
    have hrev : ((c0 :: t) ++ retTail r).reverse =
        d :: (dt ++ (' ' :: '=' :: ' ' :: ')' :: (t.reverse ++ [c0]))) := by
      rw [retTail]
      simp [List.reverse_append, hd]
    rw [hrev] at hc
    simp [List.take_succ_cons] at hc
    rw [hc]
    exact isDigitCh_not_ws d hdig

theorem stepLine_eq_of_none (st : StraceFile) (line : List Char)
    (h1 : matchExecve (pyStrip line) = none) (h2 : matchClone (pyStrip line) = none) :
    stepLine st line = st := by
  unfold stepLine
  rw [h1, h2]

theorem stepLine_named (st : StraceFile) (line : List Char) (h : st.named = true) :
    (stepLine st line).named = true ∧ (stepLine st line).execve = st.execve ∧
      (stepLine st line).name = st.name ∧ (stepLine st line).args = st.args := by
  unfold stepLine
  cases hm : matchExecve (pyStrip line) with
  | some g =>
    obtain ⟨ex, nm, ar⟩ := g
    simp [h]
  | none =>
    cases hc : matchClone (pyStrip line) with
    | some p => simp [h]
    | none => simp [h]

theorem foldl_stepLine_named (ls : List (List Char)) : ∀ (st : StraceFile),
    st.named = true →
    ((ls.foldl stepLine st).named = true ∧ (ls.foldl stepLine st).execve = st.execve ∧
      (ls.foldl stepLine st).name = st.name ∧ (ls.foldl stepLine st).args = st.args) := by
  induction ls with
  | nil => intro st h; exact ⟨h, rfl, rfl, rfl⟩
  | cons l ls ih =>
    intro st h
    obtain ⟨h1, h2, h3, h4⟩ := stepLine_named st l h
    obtain ⟨g1, g2, g3, g4⟩ := ih (stepLine st l) h1
    exact ⟨g1, g2.trans h2, g3.trans h3, g4.trans h4⟩

theorem stepLine_unnamed_clone (st : StraceFile) (line : List Char)
    (hm : matchExecve (pyStrip line) = none) (h : st.named = false) :
    (stepLine st line).named = false := by
  unfold stepLine
  rw [hm]
  cases hc : matchClone (pyStrip line) with
  | some p => simp [h]
  | none => simp [h]

theorem foldl_stepLine_first (ls : List (List Char)) : ∀ (st : StraceFile)
    (e n a : List Char), st.named = false → firstExecMatch ls = some (e, n, a) →
    ((ls.foldl stepLine st).execve = some e ∧ (ls.foldl stepLine st).name = some n ∧
      (ls.foldl stepLine st).args = some ('"' :: n ++ '"' :: a)) := by
  induction ls with
  | nil => intro st e n a h hf; simp [firstExecMatch] at hf
  | cons l ls ih =>
    intro st e n a h hf
    cases hm : matchExecve (pyStrip l) with
    | some g =>
      obtain ⟨e', n', a'⟩ := g
      have hg : (e', n', a') = (e, n, a) := by
        rw [firstExecMatch, hm] at hf
        exact Option.some.inj hf
      obtain ⟨he, hn, ha⟩ : e' = e ∧ n' = n ∧ a' = a := by
        simp at hg
        exact ⟨hg.1, hg.2.1, hg.2.2⟩
      have hstep : stepLine st l = { st with
          named := true
          execve := some e'
          name := some n'
          args := some ('"' :: n' ++ '"' :: a') } := by
        unfold stepLine
        rw [hm]
        simp [h]
      rw [List.foldl_cons, hstep]
      obtain ⟨-, g2, g3, g4⟩ := foldl_stepLine_named ls
        { st with
          named := true
          execve := some e'
          name := some n'
          args := some ('"' :: n' ++ '"' :: a') } rfl
      rw [g2, g3, g4]
      rw [he, hn, ha]
      exact ⟨rfl, rfl, rfl⟩
    | none =>
      have hf' : firstExecMatch ls = some (e, n, a) := by
        rw [firstExecMatch, hm] at hf
        exact hf
      rw [List.foldl_cons]
      exact ih (stepLine st l) e n a (stepLine_unnamed_clone st l hm h) hf'

/-! ### Lemmas about `processes` -/

theorem mkStraceFile_error (fn : String) (lines : List (List Char))
    (hpid : straceFilePid fn = none) :
    mkStraceFile fn lines = Except.error ("cannot extract pid from filename " ++ fn) := by
  unfold mkStraceFile
  rw [hpid]

theorem processesAux_error (fn : String) (lines : List (List Char))
    (hpid : straceFilePid fn = none) :
    ∀ (files : List (String × List (List Char))) (acc : Dict),
      (fn, lines) ∈ files → ∃ e, processesAux acc files = Except.error e := by
  intro files
  induction files with
  | nil => intro acc h; simp at h
  | cons g gs ih =>
    intro acc hmem
    rcases List.mem_cons.mp hmem with heq | hmem'
    · refine ⟨"cannot extract pid from filename " ++ fn, ?_⟩
      have herr : mkStraceFile g.1 g.2 = Except.error ("cannot extract pid from filename " ++ fn) := by
        rw [← heq]
        exact mkStraceFile_error fn lines hpid
      simp [processesAux, herr]
    · cases hmk : mkStraceFile g.1 g.2 with
      | error e => exact ⟨e, by simp [processesAux, hmk]⟩
      | ok sf =>
        obtain ⟨e, he⟩ := ih (dictInsert sf.pid sf acc) hmem'
        exact ⟨e, by simp [processesAux, hmk]; exact he⟩

theorem processesAux_append (a : List (String × List (List Char))) :
    ∀ (b : List (String × List (List Char))) (acc m : Dict),
      processesAux acc a = Except.ok m →
      processesAux acc (a ++ b) = processesAux m b := by
  induction a with
  | nil =>
    intro b acc m h
    simp [processesAux] at h
    rw [← h]
    rfl
  | cons g gs ih =>
    intro b acc m h
    cases hmk : mkStraceFile g.1 g.2 with
    | error e => simp [processesAux, hmk] at h
    | ok sf =>
      simp only [processesAux, hmk] at h
      simp only [List.cons_append, processesAux, hmk]
      exact ih b _ m h

theorem processesAux_all_ok : ∀ (files : List (String × List (List Char))) (acc : Dict),
    (∀ g ∈ files, ∃ sg, mkStraceFile g.1 g.2 = Except.ok sg) →
    ∃ m, processesAux acc files = Except.ok m := by
  intro files
  induction files with
  | nil => intro acc _; exact ⟨acc, rfl⟩
  | cons g gs ih =>
    intro acc h
    obtain ⟨sg, hsg⟩ := h g (by simp)
    obtain ⟨m, hm⟩ := ih (dictInsert sg.pid sg acc) (fun g' hg' => h g' (by simp [hg']))
    exact ⟨m, by simp [processesAux, hsg]; exact hm⟩

theorem processesAux_frozen (p : Int) : ∀ (files : List (String × List (List Char)))
    (acc m : Dict), processesAux acc files = Except.ok m →
    (∀ g ∈ files, ∀ sg, mkStraceFile g.1 g.2 = Except.ok sg → sg.pid ≠ p) →
    dictGet p m = dictGet p acc := by
  intro files
  induction files with
  | nil =>
    intro acc m h _
    simp [processesAux] at h
    rw [← h]
  | cons g gs ih =>
    intro acc m h hall
    cases hmk : mkStraceFile g.1 g.2 with
    | error e => simp [processesAux, hmk] at h
    | ok sf =>
      simp only [processesAux, hmk] at h
      have hne : sf.pid ≠ p := hall g (by simp) sf hmk
      rw [ih _ m h (fun g' hg' => hall g' (by simp [hg']))]
      exact dictGet_insert_ne sf.pid p sf (Ne.symm hne) acc

/-! ### Lemmas about the root-collecting fold of `tree` -/

theorem rootFold_skip (procs : Dict) (p : Int) (hp : p ∈ allClones procs) :
    ∀ (l : Dict) (acc : Dict), dictGet p (l.foldl (rootStep procs) acc) = dictGet p acc := by
  intro l
  induction l with
  | nil => intro acc; rfl
  | cons kv rest ih =>
    intro acc
    rw [List.foldl_cons, ih]
    unfold rootStep
    split
    · rfl
    · rename_i hnotin
      exact dictGet_insert_ne kv.2.pid p kv.2 (fun he => hnotin (he ▸ hp)) acc

theorem rootFold_ne (procs : Dict) (p : Int) :
    ∀ (l : Dict) (acc : Dict), (∀ kv ∈ l, kv.2.pid ≠ p) →
      dictGet p (l.foldl (rootStep procs) acc) = dictGet p acc := by
  intro l
  induction l with
  | nil => intro acc _; rfl
  | cons kv rest ih =>
    intro acc hall
    rw [List.foldl_cons, ih _ (fun kv' h' => hall kv' (by simp [h']))]
    unfold rootStep
    split
    · rfl
    · exact dictGet_insert_ne kv.2.pid p kv.2 (Ne.symm (hall kv (by simp))) acc

theorem rootFold_mem (procs : Dict) (p : Int) :
    ∀ (l : Dict) (acc : Dict) (kv : Int × StraceFile), kv ∈ l → kv.2.pid = p →
      p ∉ allClones procs → (l.map (fun kv => kv.2.pid)).Nodup →
      dictGet p (l.foldl (rootStep procs) acc) = some kv.2 := by
  intro l
  induction l with
  | nil => intro acc kv h; simp at h
  | cons hd tl ih =>
    intro acc kv hmem hpid hp hnodup
    rw [List.map_cons, List.nodup_cons] at hnodup
    rcases List.mem_cons.mp hmem with heq | hmem'
    · subst heq
      rw [List.foldl_cons]
      have hstep : rootStep procs acc kv = dictInsert p kv.2 acc := by
        unfold rootStep
        rw [hpid, if_neg hp]
      rw [hstep]
      rw [rootFold_ne procs p tl _ ?_]
      · exact dictGet_insert_self p kv.2 acc
      · intro kv' hkv' he
        exact hnodup.1 (hpid ▸ he ▸ List.mem_map_of_mem (fun kv => kv.2.pid) hkv')
    · rw [List.foldl_cons]
      exact ih _ kv hmem' hpid hp hnodup.2

theorem map_congr_mem {α β : Type} (f g : α → β) : ∀ (l : List α),
    (∀ a ∈ l, f a = g a) → l.map f = l.map g := by
  intro l
  induction l with
  | nil => intro _; rfl
  | cons x t ih => intro h; simp [h x (by simp), ih (fun a ha => h a (by simp [ha]))]

theorem treeProcs_pid_map (procs : Dict) (hwk : ∀ kv ∈ procs, kv.2.pid = kv.1) :
    (treeProcs procs).map (fun kv => kv.2.pid) = procs.map Prod.fst := by
  unfold treeProcs
  rw [List.map_map]
  exact map_congr_mem _ _ procs (fun kv hkv => hwk kv hkv)

/-! ### Claim theorems -/

/-- C1: for every well-keyed collection of extracted records, `tree`
returns a record as a root (a key of the returned dictionary) iff the
pid of the record does not appear in the union of all `clones` sets of the
collection; whether the record has children plays no role. -/
theorem c1_root_iff (procs : Dict) (p : Int) (sf : StraceFile)
    (hwk : WellKeyed procs) (hget : dictGet p procs = some sf) :
    ((∃ tr, dictGet p (tree procs) = some tr) ↔ p ∉ allClones procs) := by
  obtain ⟨hnodup, hpids⟩ := hwk
  have hmem : (p, sf) ∈ procs := dictGet_mem p sf procs hget
  have hpid : sf.pid = p := hpids (p, sf) hmem
  constructor
  · rintro ⟨tr, htr⟩ hp
    rw [tree, rootFold_skip procs p hp] at htr
    simp [dictGet] at htr
  · intro hp
    refine ⟨treeRecord procs sf, ?_⟩
    rw [tree]
    apply rootFold_mem procs p (treeProcs procs) [] (p, treeRecord procs sf)
    · exact List.mem_map_of_mem _ hmem
    · exact hpid
    · exact hp
    · rw [treeProcs_pid_map procs hpids]
      exact hnodup

theorem c1_root_iff_witness :
    WellKeyed wProcs ∧ dictGet 1 wProcs = some wRec1 ∧
      (∃ tr, dictGet 1 (tree wProcs) = some tr) :=
  ⟨by decide, by decide, (c1_root_iff wProcs 1 wRec1 (by decide) (by decide)).mpr (by decide)⟩

/-- C2: after `tree` runs, the `children` set of every record is exactly the
set of (pids of) records that are keys of the collection and occur in the
`clones` set of the record; a spawned pid with no record is silently dropped. -/
theorem c2_children (procs : Dict) (p : Int) (sf : StraceFile)
    (hget : dictGet p procs = some sf) :
    ∃ tr, dictGet p (treeProcs procs) = some tr ∧
      ∀ q, q ∈ tr.children ↔ ((dictGet q procs).isSome = true ∧ q ∈ sf.clones) := by
  refine ⟨treeRecord procs sf, ?_, ?_⟩
  · rw [dictGet_treeProcs, hget]
    rfl
  · intro q
    show q ∈ sf.clones.filter (fun q => (dictGet q procs).isSome) ↔ _
    rw [Finset.mem_filter]
    constructor
    · rintro ⟨hq1, hq2⟩
      exact ⟨hq2, hq1⟩
    · rintro ⟨hq1, hq2⟩
      exact ⟨hq2, hq1⟩

theorem c2_children_witness :
    ∃ tr, dictGet 1 (treeProcs wProcs) = some tr ∧
      ((2 : Int) ∈ tr.children ↔ ((dictGet 2 wProcs).isSome = true ∧ (2 : Int) ∈ wRec1.clones)) := by
  obtain ⟨tr, htr, hch⟩ := c2_children wProcs 1 wRec1 (by decide)
  exact ⟨tr, htr, hch 2⟩

/-- C6: `tree` gives every record with no captured image replacement the
synthetic label `clone` when its pid occurs in the union of all spawned
pids and `init` otherwise, and leaves the parsed name of every record with
a captured image replacement unchanged. -/
theorem c6_labels (procs : Dict) (p : Int) (sf : StraceFile)
    (hget : dictGet p procs = some sf) :
    ∃ tr, dictGet p (treeProcs procs) = some tr ∧
      (sf.named = false →
        tr.name = some (if sf.pid ∈ allClones procs then ("clone").toList else ("init").toList) ∧
          tr.execve = tr.name) ∧
      (sf.named = true → tr.name = sf.name ∧ tr.execve = sf.execve) := by
  refine ⟨treeRecord procs sf, by rw [dictGet_treeProcs, hget]; rfl, ?_, ?_⟩
  · intro h
    constructor
    · show (if sf.named then sf.name else some _) = _
      rw [h]
      simp
    · show (if sf.named then sf.execve else some _) = (if sf.named then sf.name else some _)
      rw [h]
      simp
  · intro h
    constructor
    · show (if sf.named then sf.name else some _) = sf.name
      rw [h]
      simp
    · show (if sf.named then sf.execve else some _) = sf.execve
      rw [h]
      simp

theorem c6_labels_witness :
    ∃ tr, dictGet 2 (treeProcs wProcs) = some tr ∧
      (wRec2.named = false →
        tr.name = some (if wRec2.pid ∈ allClones wProcs then ("clone").toList else ("init").toList) ∧
          tr.execve = tr.name) ∧
      (wRec2.named = true → tr.name = wRec2.name ∧ tr.execve = wRec2.execve) :=
  c6_labels wProcs 2 wRec2 (by decide)

/-- C3 counterexample: on a file that re-executes (`/a` first, `/b` last),
the `execve` field of the extracted record holds the path of the FIRST
recognized successful execve line, not of the last one, refuting the claim
that `executedPath` equals the path of the last such line. -/
theorem c3_counterexample :
    (reExecLines.foldl stepLine (initFile "t.1" 1)).execve = some (("/a").toList) ∧
      (lastExecMatch reExecLines).map (fun g => g.1) = some (("/b").toList) ∧
      some (("/a").toList) ≠ (some (("/b").toList) : Option (List Char)) :=
  ⟨by decide, by decide, by decide⟩

/-- C3 amended: for every trace file containing at least one recognized
successful execve line, the `execve` field of the extracted record equals the
quoted path of the FIRST such line. -/
theorem c3_first_exec (fn : String) (lines : List (List Char)) (p : Int)
    (e n a : List Char) (hpid : straceFilePid fn = some p)
    (hfirst : firstExecMatch lines = some (e, n, a)) :
    ∃ sf, mkStraceFile fn lines = Except.ok sf ∧ sf.execve = some e := by
  refine ⟨lines.foldl stepLine (initFile fn p), ?_, ?_⟩
  · unfold mkStraceFile
    rw [hpid]
  · exact (foldl_stepLine_first lines (initFile fn p) e n a rfl hfirst).1

theorem c3_first_exec_witness :
    ∃ sf, mkStraceFile "t.1" reExecLines = Except.ok sf ∧ sf.execve = some (("/a").toList) :=
  c3_first_exec "t.1" reExecLines 1 (("/a").toList) (("a").toList) ((", \"b\"").toList)
    (by decide) (by decide)

/-- C4: once an image replacement has been captured (`named` is set), the
`name` and `args` fields of the record are unchanged by processing any list of
further lines, successful execve lines included. -/
theorem c4_first_exec_immutable (st : StraceFile) (ls : List (List Char))
    (h : st.named = true) :
    (ls.foldl stepLine st).name = st.name ∧ (ls.foldl stepLine st).args = st.args := by
  obtain ⟨-, -, h3, h4⟩ := foldl_stepLine_named ls st h
  exact ⟨h3, h4⟩

theorem c4_first_exec_immutable_witness :
    (reExecLines.foldl stepLine wNamed).name = wNamed.name ∧
      (reExecLines.foldl stepLine wNamed).args = wNamed.args :=
  c4_first_exec_immutable wNamed reExecLines (by decide)

/-- C5: a line of the execve call shape with a non-zero return, and a line
of the clone/vfork call shape with a negative return, leave the record
under construction entirely unchanged (all fields, in particular
`execve`, `name`, `args` and `clones`). -/
theorem c5_failed_call_frame (st : StraceFile) (pre : List Char) (r : Int)
    (hpre : pre ≠ []) (hw : ∀ c ∈ pre, isPyWs c = false) :
    (r ≠ 0 → ∀ path nm args mid, stepLine st (execveCallLine pre path nm args mid r) = st) ∧
      (r < 0 → ∀ body useV, stepLine st (cloneCallLine pre body useV r) = st) := by
  obtain ⟨c0, pre', rfl⟩ : ∃ c0 pre', pre = c0 :: pre' := by
    cases pre with
    | nil => exact absurd rfl hpre
    | cons c0 pre' => exact ⟨c0, pre', rfl⟩
  have hc0 : isPyWs c0 = false := hw c0 (by simp)
  constructor
  · intro hr path nm args mid
    have hstrip : pyStrip (execveCallLine (c0 :: pre') path nm args mid r) =
        execveCallLine (c0 :: pre') path nm args mid r :=
      pyStrip_retTail c0 _ r hc0
    apply stepLine_eq_of_none
    · rw [hstrip]
      exact matchExecve_ret_none _ r hr
    · rw [hstrip]
      rw [show execveCallLine (c0 :: pre') path nm args mid r =
          (c0 :: pre') ++ (" execve(\"").toList ++ (path ++ (("\", [\"").toList ++
            (nm ++ ('"' :: (args ++ (']' :: (mid ++ retTail r))))))) from by
        simp [execveCallLine, List.append_assoc]]
      exact matchClone_execve_none (c0 :: pre') _ (by simp) hw
  · intro hr body useV
    have hstrip : pyStrip (cloneCallLine (c0 :: pre') body useV r) =
        cloneCallLine (c0 :: pre') body useV r :=
      pyStrip_retTail c0 _ r hc0
    apply stepLine_eq_of_none
    · rw [hstrip]
      exact matchExecve_ret_none _ r (by omega)
    · rw [hstrip]
      exact matchClone_cloneLine_neg (c0 :: pre') body useV r (by simp) hw hr

theorem c5_failed_call_frame_witness :
    (stepLine wNamed (execveCallLine (("12:00").toList) (("/x").toList) (("x").toList)
        ((", \"y\"").toList) ((", e").toList) 5) = wNamed) ∧
      (stepLine wNamed (cloneCallLine (("12:00").toList) (("a").toList) false (-1)) = wNamed) :=
  ⟨(c5_failed_call_frame wNamed (("12:00").toList) 5 (by decide) (by decide)).1
      (by decide) _ _ _ _,
    (c5_failed_call_frame wNamed (("12:00").toList) (-1) (by decide) (by decide)).2
      (by decide) _ _⟩

/-- C7 counterexample: a successful execve line whose bracketed list
consists of exactly one double-quoted element (the display name followed by
nothing) is NOT recognized — `RE_EXECVE` demands at least one character
after the display name inside the brackets — so the extractor captures
nothing from it, refuting the claim. -/
theorem c7_counterexample :
    matchExecve (("123 execve(\"/bin/true\", [\"true\"]) = 0").toList) = none ∧
      matchExecve (("123 execve(\"/bin/true\", [\"true\"], 0x7f env) = 0").toList) = none ∧
      stepLine (initFile "t.9" 9) (("123 execve(\"/bin/true\", [\"true\"]) = 0").toList) =
        initFile "t.9" 9 :=
  ⟨by decide, by decide, by decide⟩

/-- C7 amended: a successful execve line is recognized, and `execve` and
`name` captured from it, when the display name is followed by at least one
further character inside the brackets (`args` non-empty) and at least one
character stands between the closing bracket and the `) = 0` return
(`mid` non-empty); the remaining hypotheses describe the shape the
character classes of the regex require of each piece. -/
theorem c7_single_element (st : StraceFile) (pre path nm args mid : List Char)
    (hpre : pre ≠ []) (hprew : ∀ c ∈ pre, isPyWs c = false)
    (hpath : path ≠ []) (hpathq : '"' ∉ path) (hnmq : '"' ∉ nm)
    (hargs : args ≠ []) (hmid : mid ≠ []) (hmidb : ']' ∉ mid)
    (hst : st.named = false) :
    matchExecve (execveCallLine pre path nm args mid 0) = some (path, nm, args) ∧
      (stepLine st (execveCallLine pre path nm args mid 0)).execve = some path ∧
      (stepLine st (execveCallLine pre path nm args mid 0)).name = some nm := by
  have hmatch : matchExecve (execveCallLine pre path nm args mid 0) = some (path, nm, args) := by
    have h1 : execveCallLine pre path nm args mid 0 =
        (pre ++ (" execve(\"").toList ++ path ++ ("\", [\"").toList ++ nm ++ '"' :: args ++
          ']' :: mid) ++ [')', ' ', '=', ' ', '0'] := by
      simp only [execveCallLine]
      rw [show retTail (0 : Int) = [')', ' ', '=', ' ', '0'] from rfl]
    rw [h1, matchExecve_append_core]
    exact parseExecveCore_eq pre path nm args mid hpre hprew hpath hpathq hnmq hargs hmid hmidb
  obtain ⟨c0, pre', rfl⟩ : ∃ c0 pre', pre = c0 :: pre' := by
    cases pre with
    | nil => exact absurd rfl hpre
    | cons c0 pre' => exact ⟨c0, pre', rfl⟩
  have hstrip : pyStrip (execveCallLine (c0 :: pre') path nm args mid 0) =
      execveCallLine (c0 :: pre') path nm args mid 0 :=
    pyStrip_retTail c0 _ 0 (hprew c0 (by simp))
  have hstep : stepLine st (execveCallLine (c0 :: pre') path nm args mid 0) =
      { st with
        named := true
        execve := some path
        name := some nm
        args := some ('"' :: nm ++ '"' :: args) } := by
    unfold stepLine
    rw [hstrip, hmatch]
    simp [hst]
  exact ⟨hmatch, by rw [hstep], by rw [hstep]⟩

theorem c7_single_element_witness :
    matchExecve (execveCallLine (("12:00").toList) (("/bin/true").toList) (("true").toList)
        ((", \"x\"").toList) ((", e").toList) 0) =
      some ((("/bin/true").toList), (("true").toList), ((", \"x\"").toList)) ∧
    (stepLine (initFile "t.9" 9) (execveCallLine (("12:00").toList) (("/bin/true").toList)
        (("true").toList) ((", \"x\"").toList) ((", e").toList) 0)).execve =
      some (("/bin/true").toList) ∧
    (stepLine (initFile "t.9" 9) (execveCallLine (("12:00").toList) (("/bin/true").toList)
        (("true").toList) ((", \"x\"").toList) ((", e").toList) 0)).name =
      some (("true").toList) :=
  c7_single_element (initFile "t.9" 9) (("12:00").toList) (("/bin/true").toList)
    (("true").toList) ((", \"x\"").toList) ((", e").toList) (by decide) (by decide) (by decide)
    (by decide) (by decide) (by decide) (by decide) (by decide) (by decide)

/-- C8: when no integer pid can be extracted from an input filename
(`filename.split(".")[1]` has no parseable integer), record construction
fails with an error instead of producing a record, and `processes` on any
input list containing that file propagates the failure. -/
theorem c8_bad_filename (fn : String) (lines : List (List Char))
    (files : List (String × List (List Char))) (hpid : straceFilePid fn = none)
    (hmem : (fn, lines) ∈ files) :
    (∀ sf, mkStraceFile fn lines ≠ Except.ok sf) ∧
      ∃ e, processes files = Except.error e := by
  constructor
  · intro sf h
    rw [mkStraceFile_error fn lines hpid] at h
    exact Except.noConfusion h
  · exact processesAux_error fn lines hpid files [] hmem

theorem c8_bad_filename_witness :
    (∀ sf, mkStraceFile "tracefile" [] ≠ Except.ok sf) ∧
      ∃ e, processes [("tracefile", [])] = Except.error e :=
  c8_bad_filename "tracefile" [] [("tracefile", [])] (by decide) (by decide)

/-- C9 counterexample: on the literal two-file example of the spec (the execve
line written without a prefix token and with `) = 0` directly after the
bracket), record 100 is still the only root with child 101, but it is NOT
named `sh` and carries no argv: the execve line is not recognized, so the
root is labeled `init`. -/
theorem c9_counterexample :
    (dictGet 100 (tree exampleProcsLiteral)).map (fun tr => tr.name) =
        some (some (("init").toList)) ∧
      (dictGet 100 (tree exampleProcsLiteral)).map (fun tr => tr.args) = some none ∧
      some (("init").toList) ≠ (some (("sh").toList) : Option (List Char)) :=
  ⟨by decide, by decide, by decide⟩

/-- C9 amended: with the execve line written the way the tracer prints it
(prefix token and environment text before the return), the example behaves
as the spec expects: 100 is the only root, named `sh`, with argv text
`"sh", "-c", "true"` and exactly one child 101; 101 is labeled `clone` and
has no children. -/
theorem c9_example_amended :
    (tree exampleProcsAmended).map Prod.fst = [(100 : Int)] ∧
      (dictGet 100 (tree exampleProcsAmended)).map (fun tr => (tr.name, tr.args, tr.children)) =
        some (some (("sh").toList), some (("\"sh\", \"-c\", \"true\"").toList),
          ({101} : Finset Int)) ∧
      (dictGet 101 (treeProcs exampleProcsAmended)).map (fun tr => (tr.name, tr.children)) =
        some (some (("clone").toList), (∅ : Finset Int)) :=
  ⟨by decide, by decide, by decide⟩

/-- C10: when two files in the input list encode the same pid, `processes`
succeeds without error and its dictionary holds, under that pid, only the
record built from the later file; the record of the earlier file (its
`clones` set included) is silently discarded. -/
theorem c10_later_file_wins (pre : List (String × List (List Char)))
    (f1 : String × List (List Char)) (mid : List (String × List (List Char)))
    (f2 : String × List (List Char)) (post : List (String × List (List Char)))
    (sf1 sf2 : StraceFile)
    (h1 : mkStraceFile f1.1 f1.2 = Except.ok sf1)
    (h2 : mkStraceFile f2.1 f2.2 = Except.ok sf2)
    (_same_pid : sf1.pid = sf2.pid)
    (hallok : ∀ g ∈ pre ++ f1 :: mid ++ f2 :: post, ∃ sg, mkStraceFile g.1 g.2 = Except.ok sg)
    (hpost : ∀ g ∈ post, ∀ sg, mkStraceFile g.1 g.2 = Except.ok sg → sg.pid ≠ sf2.pid) :
    ∃ procs, processes (pre ++ f1 :: mid ++ f2 :: post) = Except.ok procs ∧
      dictGet sf2.pid procs = some sf2 := by
  obtain ⟨m0, hm0⟩ := processesAux_all_ok pre [] (fun g hg => hallok g (by simp [hg]))
  obtain ⟨m1, hm1⟩ := processesAux_all_ok mid (dictInsert sf1.pid sf1 m0)
    (fun g hg => hallok g (by simp [hg]))
  obtain ⟨m2, hm2⟩ := processesAux_all_ok post (dictInsert sf2.pid sf2 m1)
    (fun g hg => hallok g (by simp [hg]))
  refine ⟨m2, ?_, ?_⟩
  · unfold processes
    rw [show pre ++ f1 :: mid ++ f2 :: post = pre ++ (f1 :: (mid ++ (f2 :: post))) from by simp]
    rw [processesAux_append pre (f1 :: (mid ++ (f2 :: post))) [] m0 hm0]
    rw [show processesAux m0 (f1 :: (mid ++ (f2 :: post))) =
        processesAux (dictInsert sf1.pid sf1 m0) (mid ++ (f2 :: post)) from by
      simp [processesAux, h1]]
    rw [processesAux_append mid (f2 :: post) (dictInsert sf1.pid sf1 m0) m1 hm1]
    rw [show processesAux m1 (f2 :: post) =
        processesAux (dictInsert sf2.pid sf2 m1) post from by
      simp [processesAux, h2]]
    exact hm2
  · rw [processesAux_frozen sf2.pid post (dictInsert sf2.pid sf2 m1) m2 hm2 hpost]
    exact dictGet_insert_self sf2.pid sf2 m1

theorem c10_later_file_wins_witness :
    ∃ procs, processes dupFiles = Except.ok procs ∧ dictGet 7 procs = some dupRec2 :=
  c10_later_file_wins [] ("a.7", []) [] ("b.7", [("1 clone(x) = 9").toList]) []
    (initFile "a.7" 7) dupRec2 rfl rfl (by decide)
    (by intro g hg; simp at hg; rcases hg with hg | hg <;> rw [hg] <;> exact ⟨_, rfl⟩)
    (by intro g hg; simp at hg)

end StraceTree
